import Mathlib

/-!
Shallow embedding of the reference-counting allocator in
src/lib/src/rc.c of the curly-lang runtime library.

Two views of the code are used, matching the granularity each function
needs:

* `RcMem` — a word-level memory model (byte addresses, 64-bit words) for
  the reference-count protocol functions `rcfree` and `rcfuncfree`, which
  read and write header words behind arbitrary payload pointers,
  including tagged (low-bit-set) non-heap values.

* `RcHeap` — a structured model of the global block chain for the
  allocator functions `rcalloc`, `rccopy`, `rcfree` and
  `has_one_reference`.

Modelling conventions are documented on each definition.  Sizes and
addresses are `Nat`; the embedding assumes `size_t` arithmetic does not
wrap (every reachable heap keeps all sizes far below `2 ^ 64`, since
they are bounded by the lengths of successful mmap calls).  `mmap` with
`MAP_ANONYMOUS` is modelled as always succeeding and returning
zero-filled, page-aligned (hence even) fresh memory.
-/

namespace RcMem

/-- Memory as a map from byte addresses to the 64-bit word stored at that
address.  The header of a block whose payload starts at byte address `p`
occupies the three words at `p - 24` (next), `p - 16` (size) and `p - 8`
(refcount), mirroring `struct s_rcalloc_header` on x86-64; only the
refcount word at `p - 8` is ever accessed by the functions modelled
here. -/
def Mem : Type := Nat → Nat

/-- A single word store: the memory `m` updated to hold `v` at address
`a`. -/
def store (m : Mem) (a v : Nat) : Mem := fun x => if x = a then v else m x

/-- Embedding of `rcfree` (rc.c): step back to the header and decrement
the refcount word if it is nonzero (`if (header->rc) header->rc--;`).
Note that, unlike `rcfuncfree`, the source performs no low-bit tag check
before the header arithmetic. -/
def rcfree (m : Mem) (ptr : Nat) : Mem :=
  if m (ptr - 8) = 0 then m else store m (ptr - 8) (m (ptr - 8) - 1)

/-- Result of a run of `rcfuncfree`: a normal return carrying the final
memory, the deliberate fault performed by writing through the null
pointer (`*((volatile char*) 0) = 69;`), or exhaustion of the recursion
fuel that the embedding adds (the C function recurses without its own
bound). -/
inductive RcRes : Type where
  | ok (m : Mem)
  | crash
  | fuelOut

/-- The captured-argument loop of `rcfuncfree`
(`for (i = 1; i < argc + 1; i++)`): read `closure[i]` at byte address
`ptr + 8 * i`, stop at the first zero word, otherwise recurse through
`recur` (which is `rcfuncfree` at smaller fuel) and continue with the
memory it produced.  `k` counts the remaining iterations: a call
starting at `i = 1` passes `k = (argc + 1) % 2 ^ 32 - 1`, the number of
times the `unsigned int` loop test `i < argc + 1` succeeds. -/
def freeArgs (recur : Mem → Nat → RcRes) (ptr : Nat) : Nat → Mem → Nat → RcRes
  | 0, m, _ => .ok m
  | k + 1, m, i =>
    if m (ptr + 8 * i) = 0 then .ok m
    else
      match recur m (m (ptr + 8 * i)) with
      | .ok m2 => freeArgs recur ptr k m2 (i + 1)
      | r => r

/-- Embedding of `rcfuncfree` (rc.c): return immediately on a tagged
(odd) value; fault on refcount 0; on refcount 1 walk the captured
arguments (word 0 of the payload is the function-descriptor address,
whose first `unsigned int` is the declared arity) and then decrement;
on refcount above 1 just decrement.  The 4-byte arity read is modelled
as the low 32 bits of the word at the descriptor address
(little-endian). -/
def rcfuncfree : Nat → Mem → Nat → RcRes
  | 0, _, _ => .fuelOut
  | fuel + 1, m, ptr =>
    if ptr % 2 = 1 then .ok m
    else if m (ptr - 8) = 0 then .crash
    else if m (ptr - 8) = 1 then
      match freeArgs (rcfuncfree fuel) ptr ((m (m ptr) % 2 ^ 32 + 1) % 2 ^ 32 - 1) m 1 with
      | .ok m2 => .ok (store m2 (ptr - 8) (m2 (ptr - 8) - 1))
      | r => r
    else .ok (store m (ptr - 8) (m (ptr - 8) - 1))

/-- Concrete memory for the closure-release scenario of spec section 8:
a closure at payload address 1000 with refcount 1 (word 992), function
descriptor at address 2000 with declared arity 3 (word 2000), captured
arguments `a = 3000` (refcount 2 at word 2992) and `b = 3080` (refcount
2 at word 3072), and a zero word in captured slot 3 (word 1024, covered
by the default).  Every other word is 0 — in particular the word at
address 0, so a walk that failed to stop at the zero slot would recurse
on the null word, read refcount 0 and fault. -/
def cM : Mem := fun x =>
  if x = 992 then 1
  else if x = 1000 then 2000
  else if x = 1008 then 3000
  else if x = 1016 then 3080
  else if x = 2000 then 3
  else if x = 2992 then 2
  else if x = 3072 then 2
  else 0

/-- The memory left after releasing the closure at 1000 in `cM`: the
refcounts of the two captured arguments drop to 1 and the closure's own
refcount to 0. -/
def cMfinal : Mem := store (store (store cM 2992 1) 3072 1) 992 0

/-- Memory holding the nonzero word 5 at address 93 = 101 - 8, the
refcount slot that `rcfree` reads behind the tagged value 101. -/
def taggedMem : Mem := fun x => if x = 93 then 5 else 0

end RcMem

namespace RcHeap

/-- Size in bytes of `struct s_rcalloc_header` on x86-64: three 8-byte
fields (`next`, `size`, `rc`). -/
def headerSize : Nat := 24

/-- The `PAGE_SIZE` macro of rc.c. -/
def PAGE_SIZE : Nat := 4096

/-- One block of the global chain.  `addr` is the byte address of the
header; the payload handed to callers starts at `addr + headerSize`.
`size` and `rc` are the header fields.  `payload` lists the bytes of the
storage region the block owns past its header; in every state the
allocator itself builds, `size ≤ payload.length` (the two differ in the
fresh-segment state, where the header's `size` field is left at 0 while
the mapped region is larger). -/
structure Block where
  addr : Nat
  size : Nat
  rc : Nat
  payload : List Nat
deriving Repr, DecidableEq

/-- The allocator's global state: the block chain headed by `start` (an
empty list models `start == NULL`), in chain order, together with the
address the next mmap call will return.  The `next` header fields are
represented by list adjacency: splitting inserts the remainder right
after the split block, and a new segment is appended at the tail
(`last->next = p`). -/
structure Heap where
  blocks : List Block
  nextAddr : Nat
deriving Repr, DecidableEq

/-- The first-fit scan of `rcalloc`: walk the chain for the first block
with `!p->rc && p->size >= size`.  On a hit, split when
`p->size >= size * 2 + sizeof(struct s_rcalloc_header)` — the found
block keeps its first `size` payload bytes and gets `size` and `rc = 1`,
and the remainder (whose header is carved out of the found block's
region at `(void*) (p + 1) + size`) becomes a free block inserted right
after — otherwise hand the whole block out unchanged apart from
`rc = 1`.  Returns the new chain and the payload address, or `none` when
no block fits. -/
def allocScan (size : Nat) : List Block → Option (List Block × Nat)
  | [] => none
  | b :: rest =>
    if b.rc = 0 ∧ size ≤ b.size then
      if size * 2 + headerSize ≤ b.size then
        some ({ b with size := size, rc := 1, payload := b.payload.take size } ::
          { addr := b.addr + headerSize + size, size := b.size - size - headerSize,
            rc := 0, payload := b.payload.drop (size + headerSize) } :: rest,
          b.addr + headerSize)
      else
        some ({ b with rc := 1 } :: rest, b.addr + headerSize)
    else
      match allocScan size rest with
      | some (rest2, a) => some (b :: rest2, a)
      | none => none

/-- Lazy creation of the initial segment: when `start == NULL`, map one
page and set its header to `next = NULL`, `size = PAGE_SIZE - header`,
`rc = 0`.  Anonymous mappings are zero-filled, hence the all-zero
payload. -/
def initIfEmpty (st : Heap) : Heap :=
  if st.blocks.isEmpty then
    { blocks := [{ addr := st.nextAddr, size := PAGE_SIZE - headerSize, rc := 0,
                   payload := List.replicate (PAGE_SIZE - headerSize) 0 }],
      nextAddr := st.nextAddr + PAGE_SIZE }
  else st

/-- Length of the mapping requested when no free block fits:
`size > PAGE_SIZE - sizeof(header) ? size + sizeof(header) : PAGE_SIZE`. -/
def mapLen (size : Nat) : Nat :=
  if PAGE_SIZE - headerSize < size then size + headerSize else PAGE_SIZE

/-- Embedding of `rcalloc` (rc.c).  `size = 0` returns NULL.  Otherwise
the initial segment is created if needed and the chain is scanned
first-fit.  When the scan fails, a fresh segment of `mapLen size` bytes
is mapped and linked after the chain's tail; the source never writes the
new segment's header, so its fields keep the mmap zero-fill (`size = 0`,
`rc = 0`, `next = NULL`), the subsequent "shrink if too big" test reads
that zero `size` field, and the function returns without setting
`rc = 1` on this path. -/
def rcalloc (st0 : Heap) (size : Nat) : Option Nat × Heap :=
  if size = 0 then (none, st0)
  else
    let st := initIfEmpty st0
    match allocScan size st.blocks with
    | some (blocks2, a) => (some a, { st with blocks := blocks2 })
    | none =>
      let p : Block := { addr := st.nextAddr, size := 0, rc := 0,
                         payload := List.replicate (mapLen size - headerSize) 0 }
      let tail : List Block :=
        if size * 2 + headerSize ≤ p.size then
          [{ p with size := size, payload := p.payload.take size },
           { addr := p.addr + headerSize + size, size := p.size - size - headerSize,
             rc := 0, payload := p.payload.drop (size + headerSize) }]
        else [p]
      (some (p.addr + headerSize),
       { blocks := st.blocks ++ tail, nextAddr := st.nextAddr + mapLen size })

/-- Embedding of `rcfree` on the structured heap: the block whose
payload address is `ptr` has its refcount decremented if nonzero.  (The
word-level view of the same source function, exercised on tagged values,
is `RcMem.rcfree`.) -/
def rcfree (st : Heap) (ptr : Nat) : Heap :=
  { st with blocks := st.blocks.map fun b =>
      if b.addr + headerSize = ptr then
        (if b.rc = 0 then b else { b with rc := b.rc - 1 })
      else b }

/-- Embedding of `rcinc`: unconditionally increment the refcount behind
the payload pointer. -/
def rcinc (st : Heap) (ptr : Nat) : Heap :=
  { st with blocks := st.blocks.map fun b =>
      if b.addr + headerSize = ptr then { b with rc := b.rc + 1 } else b }

/-- Embedding of `has_one_reference`: read the refcount behind the
payload pointer and compare with 1.  Defined for payload pointers of
blocks in the chain (the only pointers the source function is ever
handed). -/
def has_one_reference (st : Heap) (ptr : Nat) : Bool :=
  match st.blocks.find? (fun b => b.addr + headerSize == ptr) with
  | some b => b.rc == 1
  | none => false

/-- One copy loop of `rccopy`: starting at index `i`, overwrite `k`
consecutive entries of `dst` with the source bytes `f i, f (i + 1), …`
(`((char*) alloced)[i] = ((char*) ptr)[i];`). -/
def copyFrom (f : Nat → Nat) : Nat → List Nat → Nat → List Nat
  | 0, dst, _ => dst
  | k + 1, dst, i => copyFrom f k (dst.set i (f i)) (i + 1)

/-- The write-back of `rccopy` on the block owning payload address `a`:
the first loop copies source offsets `[0, len)`, the second copies
`[len, size)`. -/
def copyUpdate (f : Nat → Nat) (len size a : Nat) (b : Block) : Block :=
  if b.addr + headerSize = a then
    { b with payload := copyFrom f (size - len) (copyFrom f len b.payload 0) len }
  else b

/-- Embedding of `rccopy` (rc.c).  The source pointer is abstracted as
`none` (NULL) or `some f`, where `f i` is the byte the load
`((char*) ptr)[i]` yields — an abstract fetch, because the second loop
reads source offsets in `[len, size)`, beyond the nominally initialized
prefix and possibly beyond the source block itself.  NULL source is
returned unchanged before allocating; a NULL from the inner `rcalloc` is
returned as-is; otherwise the two loops copy offsets `[0, len)` and
`[len, size)` from the source into the fresh block's payload. -/
def rccopy (st : Heap) (src : Option (Nat → Nat)) (len size : Nat) : Option Nat × Heap :=
  match src with
  | none => (none, st)
  | some f =>
    match rcalloc st size with
    | (none, st1) => (none, st1)
    | (some a, st1) =>
      (some a, { st1 with blocks := st1.blocks.map (copyUpdate f len size a) })

/-- States in which every block's header `size` field is bounded by the
length of the region the block owns.  All states the allocator builds
from an empty heap satisfy this; `rcalloc` preserves it. -/
def WFHeap (st : Heap) : Prop := ∀ b ∈ st.blocks, b.size ≤ b.payload.length

end RcHeap

/-! ## Theorems -/

/-- C7: the generic release decrements the owning block's refcount word
by exactly one when it is positive (touching no other address), and a
release on an already-zero count leaves the memory entirely unchanged
(saturating, not wrapping). -/
theorem claim_C7_release_saturates (m : RcMem.Mem) (ptr : Nat) :
    (m (ptr - 8) = 0 → RcMem.rcfree m ptr = m) ∧
    (0 < m (ptr - 8) →
      RcMem.rcfree m ptr (ptr - 8) = m (ptr - 8) - 1 ∧
      ∀ x, x ≠ ptr - 8 → RcMem.rcfree m ptr x = m x) := by
  constructor
  · intro h
    rw [RcMem.rcfree, if_pos h]
  · intro h
    rw [RcMem.rcfree, if_neg h.ne']
    constructor
    · simp [RcMem.store]
    · intro x hx
      simp [RcMem.store, hx]

/-- Witness for C7 at the concrete memory that holds 2 everywhere and
the payload pointer 100. -/
theorem claim_C7_witness : RcMem.rcfree (fun _ => 2) 100 92 = 1 :=
  ((claim_C7_release_saturates (fun _ => 2) 100).2 (by decide)).1

/-- C3, counterexample: the claim extends the ignore-tagged-values rule
to the generic release, but `rcfree` performs no low-bit check.  On the
tagged value 101 over a memory holding 5 in the word at 93 = 101 - 8 it
mutates that word to 4. -/
theorem claim_C3_counterexample :
    101 % 2 = 1 ∧ RcMem.rcfree RcMem.taggedMem 101 93 ≠ RcMem.taggedMem 93 :=
  ⟨rfl, by decide⟩

/-- C3, amended: `closureRelease` (`rcfuncfree`) on any value with its
least-significant bit set returns immediately with the memory untouched;
the generic release performs no such tag check. -/
theorem claim_C3_closure_release_tagged_noop (fuel : Nat) (m : RcMem.Mem) (t : Nat)
    (h : t % 2 = 1) : RcMem.rcfuncfree (fuel + 1) m t = .ok m := by
  rw [RcMem.rcfuncfree, if_pos h]

/-- Witness for the amended C3 at the tagged value 7 over the all-zero
memory. -/
theorem claim_C3_witness : RcMem.rcfuncfree 1 (fun _ => 0) 7 = .ok (fun _ => 0) :=
  claim_C3_closure_release_tagged_noop 0 (fun _ => 0) 7 rfl

/-- C6: `rcfuncfree` on an untagged pointer whose block already has
refcount 0 reaches the deliberate null-pointer write — modelled as the
`crash` outcome — rather than returning a memory. -/
theorem claim_C6_double_release_faults (fuel : Nat) (m : RcMem.Mem) (ptr : Nat)
    (heven : ptr % 2 = 0) (hrc : m (ptr - 8) = 0) :
    RcMem.rcfuncfree (fuel + 1) m ptr = .crash := by
  rw [RcMem.rcfuncfree, if_neg (by omega), if_pos hrc]

/-- Witness for C6 at the untagged pointer 24 over the all-zero memory. -/
theorem claim_C6_witness : RcMem.rcfuncfree 1 (fun _ => 0) 24 = .crash :=
  claim_C6_double_release_faults 0 (fun _ => 0) 24 rfl rfl

/-- C5: releasing the closure at payload 1000 of `RcMem.cM` (refcount 1,
declared arity 3, captured words `[3000, 3080, 0]`) walks the captured
slots, stops at the zero word in slot 3 (continuing would recurse on the
null word and fault, so the `ok` outcome certifies the early stop),
decrements exactly the refcounts of the two captured arguments, and
leaves the closure's own refcount at 0; no other word of memory
changes. -/
theorem claim_C5_closure_release_walk :
    RcMem.rcfuncfree 3 RcMem.cM 1000 = .ok RcMem.cMfinal ∧
    RcMem.cMfinal 992 = 0 ∧ RcMem.cMfinal 2992 = 1 ∧ RcMem.cMfinal 3072 = 1 ∧
    ∀ x, x ≠ 992 → x ≠ 2992 → x ≠ 3072 → RcMem.cMfinal x = RcMem.cM x := by
  refine ⟨rfl, rfl, rfl, rfl, ?_⟩
  intro x h1 h2 h3
  simp [RcMem.cMfinal, RcMem.store, h1, h2, h3]

/-- Witness for C5: the word at the untouched address 55 is unchanged by
the release. -/
theorem claim_C5_witness : RcMem.cMfinal 55 = RcMem.cM 55 :=
  claim_C5_closure_release_walk.2.2.2.2 55 (by decide) (by decide) (by decide)

namespace RcHeap

/-- The first-fit scan on a chain whose prefix contains no free fitting
block hands out the first block that is free and large enough, splitting
it exactly when `size * 2 + headerSize` fits. -/
theorem allocScan_append_found (n : Nat) (pre : List Block) (b : Block) (post : List Block)
    (hpre : ∀ c ∈ pre, ¬(c.rc = 0 ∧ n ≤ c.size)) (hb : b.rc = 0 ∧ n ≤ b.size) :
    allocScan n (pre ++ b :: post) =
      some (pre ++
        (if n * 2 + headerSize ≤ b.size then
          [{ b with size := n, rc := 1, payload := b.payload.take n },
           { addr := b.addr + headerSize + n, size := b.size - n - headerSize,
             rc := 0, payload := b.payload.drop (n + headerSize) }]
         else [{ b with rc := 1 }]) ++ post,
        b.addr + headerSize) := by
  induction pre with
  | nil =>
    rw [List.nil_append, allocScan, if_pos hb]
    split <;> simp
  | cons c pre ih =>
    have hc : ¬(c.rc = 0 ∧ n ≤ c.size) := hpre c (List.mem_cons_self c pre)
    have ihp := ih fun d hd => hpre d (List.mem_cons_of_mem c hd)
    rw [List.cons_append, allocScan, if_neg hc, ihp]
    rfl

/-- A successful first-fit scan keeps every live block of the chain, in
order, with all of its fields (including the payload bytes) intact: the
scan rewrites only the free block it hands out. -/
theorem allocScan_live_sublist (n : Nat) :
    ∀ (bs bs2 : List Block) (a : Nat), allocScan n bs = some (bs2, a) →
      (bs.filter fun b => b.rc != 0).Sublist bs2 := by
  intro bs
  induction bs with
  | nil => intro bs2 a h; simp [allocScan] at h
  | cons b rest ih =>
    intro bs2 a h
    by_cases hb : b.rc = 0 ∧ n ≤ b.size
    · rw [allocScan, if_pos hb] at h
      have hfilter : (b :: rest).filter (fun b => b.rc != 0) =
          rest.filter (fun b => b.rc != 0) := by
        simp [List.filter, hb.1]
      rw [hfilter]
      by_cases hsplit : n * 2 + headerSize ≤ b.size
      · rw [if_pos hsplit] at h
        simp only [Option.some.injEq, Prod.mk.injEq] at h
        obtain ⟨rfl, rfl⟩ := h
        exact ((List.filter_sublist rest).trans (List.sublist_cons_self _ rest)).trans
          (List.sublist_cons_self _ _)
      · rw [if_neg hsplit] at h
        simp only [Option.some.injEq, Prod.mk.injEq] at h
        obtain ⟨rfl, rfl⟩ := h
        exact (List.filter_sublist rest).trans (List.sublist_cons_self _ rest)
    · rw [allocScan, if_neg hb] at h
      cases hrec : allocScan n rest with
      | none => rw [hrec] at h; exact absurd h (by simp)
      | some p =>
        obtain ⟨rest2, a2⟩ := p
        rw [hrec] at h
        simp only [Option.some.injEq, Prod.mk.injEq] at h
        obtain ⟨rfl, rfl⟩ := h
        have hsub := ih rest2 a2 hrec
        by_cases hrc : b.rc = 0
        · have hfb : (b :: rest).filter (fun b => b.rc != 0) =
              rest.filter (fun b => b.rc != 0) := by simp [List.filter, hrc]
          rw [hfb]
          exact hsub.trans (List.sublist_cons_self _ _)
        · have hfb : (b :: rest).filter (fun b => b.rc != 0) =
              b :: rest.filter (fun b => b.rc != 0) := by
            simp [List.filter_cons, bne_iff_ne, hrc]
          rw [hfb]
          exact hsub.cons₂ b

/-- `copyFrom` does not change the length of the destination. -/
theorem copyFrom_length (f : Nat → Nat) :
    ∀ (k : Nat) (dst : List Nat) (i : Nat), (copyFrom f k dst i).length = dst.length := by
  intro k
  induction k with
  | zero => intro dst i; rfl
  | succ k ih => intro dst i; rw [copyFrom, ih, List.length_set]

/-- `copyFrom` leaves every index below its starting index untouched. -/
theorem copyFrom_getElem_lt (f : Nat → Nat) :
    ∀ (k : Nat) (dst : List Nat) (i j : Nat), j < i →
      (copyFrom f k dst i)[j]? = dst[j]? := by
  intro k
  induction k with
  | zero => intro dst i j _; rfl
  | succ k ih =>
    intro dst i j hj
    rw [copyFrom, ih (dst.set i (f i)) (i + 1) j (by omega),
      List.getElem?_set_ne (by omega)]

/-- Every in-bounds index in the copied range holds the corresponding
source byte after `copyFrom`. -/
theorem copyFrom_getElem_in (f : Nat → Nat) :
    ∀ (k : Nat) (dst : List Nat) (i j : Nat), i ≤ j → j < i + k → j < dst.length →
      (copyFrom f k dst i)[j]? = some (f j) := by
  intro k
  induction k with
  | zero => intro dst i j h1 h2 _; omega
  | succ k ih =>
    intro dst i j h1 h2 hlen
    rw [copyFrom]
    rcases Nat.eq_or_lt_of_le h1 with rfl | hlt
    · rw [copyFrom_getElem_lt f k _ (i + 1) i (by omega),
        List.getElem?_set_self hlen]
    · exact ih (dst.set i (f i)) (i + 1) j (by omega) (by omega)
        (by rw [List.length_set]; exact hlen)

/-- A successful first-fit scan over a chain whose `size` fields are
bounded by the owned-region lengths yields a chain containing a block
whose payload address is the returned pointer and whose region holds at
least the requested number of bytes. -/
theorem allocScan_some_block (n : Nat) :
    ∀ (bs bs2 : List Block) (a : Nat), allocScan n bs = some (bs2, a) →
      (∀ b ∈ bs, b.size ≤ b.payload.length) →
      ∃ b ∈ bs2, b.addr + headerSize = a ∧ n ≤ b.payload.length := by
  intro bs
  induction bs with
  | nil => intro bs2 a h _; simp [allocScan] at h
  | cons b rest ih =>
    intro bs2 a h hwf
    by_cases hb : b.rc = 0 ∧ n ≤ b.size
    · rw [allocScan, if_pos hb] at h
      have hlen : n ≤ b.payload.length := hb.2.trans (hwf b (List.mem_cons_self b rest))
      by_cases hsplit : n * 2 + headerSize ≤ b.size
      · rw [if_pos hsplit] at h
        simp only [Option.some.injEq, Prod.mk.injEq] at h
        obtain ⟨rfl, rfl⟩ := h
        refine ⟨_, List.mem_cons_self _ _, rfl, ?_⟩
        simp only [List.length_take]
        omega
      · rw [if_neg hsplit] at h
        simp only [Option.some.injEq, Prod.mk.injEq] at h
        obtain ⟨rfl, rfl⟩ := h
        exact ⟨_, List.mem_cons_self _ _, rfl, hlen⟩
    · rw [allocScan, if_neg hb] at h
      cases hrec : allocScan n rest with
      | none => rw [hrec] at h; exact absurd h (by simp)
      | some p =>
        obtain ⟨rest2, a2⟩ := p
        rw [hrec] at h
        simp only [Option.some.injEq, Prod.mk.injEq] at h
        obtain ⟨rfl, rfl⟩ := h
        obtain ⟨b2, hmem, haddr, hlen⟩ :=
          ih rest2 a2 hrec fun d hd => hwf d (List.mem_cons_of_mem b hd)
        exact ⟨b2, List.mem_cons_of_mem b hmem, haddr, hlen⟩

/-- A successful `rcalloc` from a well-formed state produces a chain
containing a block whose payload address is the returned pointer and
whose owned region holds at least the requested number of bytes. -/
theorem rcalloc_some_block (st : Heap) (n a : Nat) (st2 : Heap)
    (h : rcalloc st n = (some a, st2)) (hwf : WFHeap st) :
    ∃ b ∈ st2.blocks, b.addr + headerSize = a ∧ n ≤ b.payload.length := by
  by_cases hn : n = 0
  · rw [rcalloc, if_pos hn] at h
    simp at h
  · simp only [rcalloc, if_neg hn] at h
    have hwf1 : ∀ b ∈ (initIfEmpty st).blocks, b.size ≤ b.payload.length := by
      rw [initIfEmpty]
      split
      · intro b hb
        simp only [List.mem_singleton] at hb
        subst hb
        simp
      · exact hwf
    split at h
    · rename_i blocks2 a2 hscan
      simp only [Prod.mk.injEq, Option.some.injEq] at h
      obtain ⟨rfl, rfl⟩ := h
      exact allocScan_some_block n _ blocks2 a2 hscan hwf1
    · rename_i hscan
      rw [if_neg (by simp only [headerSize]; omega)] at h
      simp only [Prod.mk.injEq, Option.some.injEq] at h
      obtain ⟨rfl, rfl⟩ := h
      refine ⟨_, List.mem_append_right _ (List.mem_singleton_self _), rfl, ?_⟩
      simp only [List.length_replicate, mapLen, PAGE_SIZE, headerSize]
      split <;> omega

end RcHeap

/-- C1: evaluation at a failing input.  On a fresh heap, `rcalloc 5000`
takes the new-segment path (5000 exceeds the initial block's 4072
bytes), succeeds with payload pointer 12312, yet the owning block's
refcount is 0 — `has_one_reference` is false — because the source never
initializes the fresh segment's header: anonymous mappings are
zero-filled and the function returns without `p->rc = 1` on this path,
contradicting its own comment "Allocates something on the heap with a
reference count of 1". -/
theorem claim_C1_new_segment_rc_zero :
    (RcHeap.rcalloc ⟨[], 8192⟩ 5000).1 = some 12312 ∧
    RcHeap.has_one_reference (RcHeap.rcalloc ⟨[], 8192⟩ 5000).2 12312 = false ∧
    ((RcHeap.rcalloc ⟨[], 8192⟩ 5000).2.blocks.map fun b => (b.addr, b.rc)) =
      [(8192, 0), (12288, 0)] :=
  ⟨rfl, rfl, rfl⟩

/-- C2: evaluation at a failing input.  After `rcalloc 4072` consumes
the whole initial segment, `rcalloc 10` maps a fresh segment of
`max(PAGE_SIZE, 10 + headerSize) = 4096` bytes at 8192 and links it as
the chain's tail (both as claimed), but the segment's initial block
keeps the zero-filled header: its `size` field is 0 — not the claimed
4072 = segment minus header — so the "shrink if too big" test fails and
no 10-byte block with a free 4038-byte remainder is ever carved out,
and the chain ends at two blocks instead of three. -/
theorem claim_C2_new_segment_header_zero :
    (RcHeap.rcalloc (RcHeap.rcalloc ⟨[], 4096⟩ 4072).2 10).1 = some 8216 ∧
    ((RcHeap.rcalloc (RcHeap.rcalloc ⟨[], 4096⟩ 4072).2 10).2.blocks.map
      fun b => (b.addr, b.size, b.rc)) = [(4096, 4072, 1), (8192, 0, 0)] ∧
    (RcHeap.rcalloc (RcHeap.rcalloc ⟨[], 4096⟩ 4072).2 10).2.nextAddr = 8192 + 4096 :=
  ⟨rfl, rfl, rfl⟩

/-- C4: when the first-fit scan reaches a free block `b` of sufficient
size after a prefix with no free fitting block, `rcalloc` splits `b`
exactly when `n * 2 + headerSize ≤ b.size` — the handed-out block's
size becomes exactly `n` and the remainder becomes a free block of size
`b.size - n - headerSize` inserted immediately after it, the rest of
the chain unchanged in order — and otherwise hands out the whole block
at its existing size. -/
theorem claim_C4_first_fit_split (st : RcHeap.Heap) (n : Nat) (pre : List RcHeap.Block)
    (b : RcHeap.Block) (post : List RcHeap.Block) (hn : 0 < n)
    (hblocks : st.blocks = pre ++ b :: post)
    (hpre : ∀ c ∈ pre, ¬(c.rc = 0 ∧ n ≤ c.size)) (hrc : b.rc = 0) (hsz : n ≤ b.size) :
    RcHeap.rcalloc st n =
      (some (b.addr + RcHeap.headerSize),
       { st with blocks := pre ++
         (if n * 2 + RcHeap.headerSize ≤ b.size then
           [{ b with size := n, rc := 1, payload := b.payload.take n },
            { addr := b.addr + RcHeap.headerSize + n, size := b.size - n - RcHeap.headerSize,
              rc := 0, payload := b.payload.drop (n + RcHeap.headerSize) }]
          else [{ b with rc := 1 }]) ++ post }) := by
  have hne : (pre ++ b :: post).isEmpty = false := by cases pre <;> rfl
  have hinit : RcHeap.initIfEmpty st = st := by
    rw [RcHeap.initIfEmpty, hblocks, hne]
    rfl
  have hscan := RcHeap.allocScan_append_found n pre b post hpre ⟨hrc, hsz⟩
  simp only [RcHeap.rcalloc, hn.ne', if_false, hinit, hblocks, hscan, ite_false]

/-- Witness for C4: splitting a free 100-byte block on a 10-byte
request yields a 10-byte live block and a 66-byte free remainder right
after it. -/
theorem claim_C4_witness :
    RcHeap.rcalloc ⟨[⟨4096, 100, 0, []⟩], 0⟩ 10 =
      (some 4120, ⟨[⟨4096, 10, 1, []⟩, ⟨4130, 66, 0, []⟩], 0⟩) := by
  have h := claim_C4_first_fit_split ⟨[⟨4096, 100, 0, []⟩], 0⟩ 10 [] ⟨4096, 100, 0, []⟩ []
    (by decide) rfl (by simp) rfl (by decide)
  rw [if_pos (by decide)] at h
  simpa using h

/-- C8: on a fresh heap, allocate block A of size 10 (payload pointer
4120), release it back to refcount 0, then allocate any `m ≤ 10`: the
first-fit scan reuses A and returns the same payload pointer instead of
growing the heap. -/
theorem claim_C8_freed_block_reused (m : Nat) (h1 : 1 ≤ m) (h2 : m ≤ 10) :
    (RcHeap.rcalloc ⟨[], 4096⟩ 10).1 = some 4120 ∧
    (RcHeap.rcalloc (RcHeap.rcfree (RcHeap.rcalloc ⟨[], 4096⟩ 10).2 4120) m).1 =
      some 4120 := by
  refine ⟨rfl, ?_⟩
  interval_cases m <;> rfl

/-- Witness for C8 at `m = 5`. -/
theorem claim_C8_witness :
    (RcHeap.rcalloc ⟨[], 4096⟩ 10).1 = some 4120 ∧
    (RcHeap.rcalloc (RcHeap.rcfree (RcHeap.rcalloc ⟨[], 4096⟩ 10).2 4120) 5).1 =
      some 4120 :=
  claim_C8_freed_block_reused 5 (by decide) (by decide)

/-- C9: `rccopy` passes a NULL source through untouched, passes a NULL
from the inner `rcalloc` through, and on success returns a fresh
allocation each of whose first `size` bytes — both the initialized
prefix `[0, len)` and the tail `[len, size)` — is read from the source
(`f`), not zero-filled. -/
theorem claim_C9_duplicate (st : RcHeap.Heap) (f : Nat → Nat) (len size : Nat)
    (hls : len ≤ size) (hwf : RcHeap.WFHeap st) :
    RcHeap.rccopy st none len size = (none, st) ∧
    ((RcHeap.rcalloc st size).1 = none →
      RcHeap.rccopy st (some f) len size = (none, (RcHeap.rcalloc st size).2)) ∧
    (∀ a, (RcHeap.rcalloc st size).1 = some a →
      (RcHeap.rccopy st (some f) len size).1 = some a ∧
      (∃ b ∈ (RcHeap.rccopy st (some f) len size).2.blocks,
        b.addr + RcHeap.headerSize = a ∧ size ≤ b.payload.length) ∧
      ∀ b ∈ (RcHeap.rccopy st (some f) len size).2.blocks,
        b.addr + RcHeap.headerSize = a →
        ∀ i, i < size → i < b.payload.length → b.payload[i]? = some (f i)) := by
  refine ⟨rfl, ?_, ?_⟩
  · intro hfail
    rcases hr : RcHeap.rcalloc st size with ⟨o, st1⟩
    rw [hr] at hfail
    replace hfail : o = none := hfail
    subst hfail
    rw [RcHeap.rccopy, hr]
  · intro a ha
    rcases hr : RcHeap.rcalloc st size with ⟨o, st1⟩
    rw [hr] at ha
    replace ha : o = some a := ha
    subst ha
    have hcopy : RcHeap.rccopy st (some f) len size =
        (some a,
          { st1 with
            blocks := st1.blocks.map (RcHeap.copyUpdate f len size a) }) := by
      rw [RcHeap.rccopy, hr]
    refine ⟨by rw [hcopy], ?_, ?_⟩
    · obtain ⟨b0, hmem, haddr, hlen⟩ := RcHeap.rcalloc_some_block st size a st1 hr hwf
      refine ⟨RcHeap.copyUpdate f len size a b0, ?_, ?_, ?_⟩
      · rw [hcopy]
        exact List.mem_map_of_mem (RcHeap.copyUpdate f len size a) hmem
      · rw [RcHeap.copyUpdate, if_pos haddr]
        exact haddr
      · rw [RcHeap.copyUpdate, if_pos haddr]
        simp only
        rw [RcHeap.copyFrom_length, RcHeap.copyFrom_length]
        exact hlen
    · intro b hb haddr i hi hilen
      rw [hcopy] at hb
      simp only [List.mem_map] at hb
      obtain ⟨b0, hb0mem, hb0⟩ := hb
      by_cases hb0addr : b0.addr + RcHeap.headerSize = a
      · rw [RcHeap.copyUpdate, if_pos hb0addr] at hb0
        subst hb0
        simp only at hilen ⊢
        have hlen0 : i < b0.payload.length := by
          rwa [RcHeap.copyFrom_length, RcHeap.copyFrom_length] at hilen
        by_cases hcase : i < len
        · rw [RcHeap.copyFrom_getElem_lt f (size - len) _ len i hcase,
            RcHeap.copyFrom_getElem_in f len b0.payload 0 i (Nat.zero_le i)
              (by omega) hlen0]
        · rw [RcHeap.copyFrom_getElem_in f (size - len) _ len i (by omega) (by omega)
            (by rw [RcHeap.copyFrom_length]; exact hlen0)]
      · rw [RcHeap.copyUpdate, if_neg hb0addr] at hb0
        subst hb0
        exact absurd haddr hb0addr

/-- Witness for C9: duplicating 4 bytes (2 initialized) from the source
byte map `i + 100` on a fresh heap returns payload pointer 4120. -/
theorem claim_C9_witness :
    (RcHeap.rccopy ⟨[], 4096⟩ (some fun i => i + 100) 2 4).1 = some 4120 :=
  ((claim_C9_duplicate ⟨[], 4096⟩ (fun i => i + 100) 2 4 (by decide)
    (fun b hb => absurd hb (List.not_mem_nil b))).2.2 4120 rfl).1

/-- C10: frame property of `rcalloc`.  The live blocks (refcount ≥ 1)
of the chain survive any allocation unchanged — same address, size
field, refcount and payload bytes, in the same order — because the scan
rewrites only the free block it hands out and segment growth only
appends after the tail. -/
theorem claim_C10_live_blocks_preserved (st : RcHeap.Heap) (n : Nat) :
    (st.blocks.filter fun b => b.rc != 0).Sublist ((RcHeap.rcalloc st n).2.blocks) := by
  by_cases hn : n = 0
  · rw [RcHeap.rcalloc, if_pos hn]
    exact List.filter_sublist st.blocks
  · simp only [RcHeap.rcalloc, if_neg hn]
    have hsub0 : (st.blocks.filter fun b => b.rc != 0).Sublist
        ((RcHeap.initIfEmpty st).blocks.filter fun b => b.rc != 0) := by
      rw [RcHeap.initIfEmpty]
      split
      · rename_i hempty
        rw [List.isEmpty_iff.mp hempty]
        exact List.nil_sublist _
      · exact List.Sublist.refl _
    split
    · rename_i blocks2 a hscan
      exact hsub0.trans (RcHeap.allocScan_live_sublist n _ blocks2 a hscan)
    · exact hsub0.trans ((List.filter_sublist _).trans (List.sublist_append_left _ _))
